import Mathlib

set_option maxHeartbeats 1000000

namespace TidyTable

/-- Modelled from the spec: cell values of a Table. The repository is a tutorial
that only invokes the R tidyverse verbs; the library's value model is not part of
the repository's own sources, so cells are modelled from the spec's data model:
scalars (strings and numbers) plus an explicit absent marker. -/
inductive Val : Type where
  | absent : Val
  | str : String → Val
  | num : ℚ → Val
deriving DecidableEq

/-- Rendering of a cell value as a column name, used by `pivot_wider` when the
distinct values of the `names_from` column become new column names. -/
def Val.toName : Val → String
  | Val.absent => "NA"
  | Val.str s => s
  | Val.num q => toString q.num ++ "/" ++ toString q.den

/-- Modelled from the spec: a Table is an ordered sequence of column names plus,
for each row, a sequence of cell values (row-oriented storage of the spec's
name-to-column mapping). -/
structure Table where
  header : List String
  rows : List (List Val)
deriving DecidableEq

/-- Well-formedness from the spec's data model: column names are unique and every
row has exactly one cell per column. -/
def Table.WF (t : Table) : Prop :=
  t.header.Nodup ∧ ∀ r ∈ t.rows, r.length = t.header.length

/-- Look up the cell of row `r` under column name `c`, given the header `hdr`;
the absent marker is returned for an unknown column. -/
def rowGet : List String → List Val → String → Val
  | [], _, _ => Val.absent
  | _ :: _, [], _ => Val.absent
  | h :: hs, x :: xs, c => if h = c then x else rowGet hs xs c

/-- Modelled from the spec: `filter` keeps exactly the rows on which the pure
row predicate holds; the predicate sees the row as a name/value association. -/
def Table.filter (t : Table) (p : List (String × Val) → Bool) : Table :=
  { header := t.header, rows := t.rows.filter (fun r => p (t.header.zip r)) }

/-- Modelled from the spec: a Grouped Table is a Table annotated with its
grouping key columns; no computation happens at grouping time. -/
structure GroupedTable where
  table : Table
  groups : List String
deriving DecidableEq

/-- Modelled from the spec: `group_by` only attaches the grouping annotation. -/
def group_by (t : Table) (keys : List String) : GroupedTable :=
  { table := t, groups := keys }

/-- The key tuple of a row: its cells under the grouping key columns. -/
def keyTuple (t : Table) (keys : List String) (r : List Val) : List Val :=
  keys.map (fun c => rowGet t.header r c)

/-- First-occurrence deduplication of a list. -/
def uniqueKeep {α : Type} [DecidableEq α] : List α → List α
  | [] => []
  | a :: l => a :: (uniqueKeep l).filter (fun b => b ≠ a)

/-- Modelled from the spec: the absent-value policy a caller selects for each
aggregation; `skipAbsent` removes absent values before reduction,
`propagateAbsent` makes the result absent as soon as one input is absent. -/
inductive AbsentPolicy : Type where
  | skipAbsent : AbsentPolicy
  | propagateAbsent : AbsentPolicy
deriving DecidableEq

/-- The default absent-value policy of the spec. -/
def defaultAbsentPolicy : AbsentPolicy := AbsentPolicy.skipAbsent

/-- Modelled from the spec: one aggregation of `summarize` — the new column
name, the reduction function, the source column, and the absent-value policy. -/
structure Agg where
  name : String
  red : List ℚ → ℚ
  src : String
  policy : AbsentPolicy

/-- Convenience constructor for an aggregation with the default policy. -/
def aggOf (n : String) (f : List ℚ → ℚ) (s : String) : Agg :=
  { name := n, red := f, src := s, policy := defaultAbsentPolicy }

/-- The numeric content of a cell, when it has one. -/
def Val.toNum : Val → Option ℚ
  | Val.num q => some q
  | _ => none

/-- Remove absent markers from a sequence of cell values. -/
def dropAbsent (vs : List Val) : List Val :=
  vs.filter (fun x => x ≠ Val.absent)

/-- Apply a reduction function to a sequence of cell values under the given
absent-value policy. -/
def applyPolicy (pol : AbsentPolicy) (f : List ℚ → ℚ) (vs : List Val) : Val :=
  match pol with
  | AbsentPolicy.skipAbsent => Val.num (f (vs.filterMap Val.toNum))
  | AbsentPolicy.propagateAbsent =>
      if Val.absent ∈ vs then Val.absent else Val.num (f (vs.filterMap Val.toNum))

/-- The distinct key tuples of a table under the given key columns, in order of
first occurrence. -/
def distinctKeys (t : Table) (keys : List String) : List (List Val) :=
  uniqueKeep (t.rows.map (keyTuple t keys))

/-- The cells of column `src` restricted to the rows of the group `key`. -/
def groupVals (t : Table) (keys : List String) (key : List Val) (src : String) : List Val :=
  (t.rows.filter (fun r => keyTuple t keys r = key)).map (fun r => rowGet t.header r src)

/-- Modelled from the spec and the tutorial's double-summarise exercise:
`summarize` produces one row per distinct key tuple, carrying the key columns
through plus one column per aggregation, and leaves the result grouped by all
but the last key column (as the tutorial's grouped pipeline relies on). -/
def summarize (gt : GroupedTable) (aggs : List Agg) : GroupedTable :=
  { table :=
      { header := gt.groups ++ aggs.map Agg.name,
        rows := (distinctKeys gt.table gt.groups).map (fun key =>
          key ++ aggs.map (fun a =>
            applyPolicy a.policy a.red (groupVals gt.table gt.groups key a.src))) },
    groups := gt.groups.dropLast }

/-- The non-collapsed columns of a `pivot_longer`. -/
def restCols (hdr : List String) (valueCols : List String) : List String :=
  hdr.filter (fun c => c ∉ valueCols)

/-- One output row of `pivot_longer`: the non-collapsed cells of `r`, then the
collapsed column's name, then its cell value. -/
def gatherRow (t : Table) (valueCols : List String) (r : List Val) (c : String) : List Val :=
  (restCols t.header valueCols).map (fun c2 => rowGet t.header r c2) ++
    [Val.str c, rowGet t.header r c]

/-- Modelled from the spec: `pivot_longer` (the tutorial's `gather`) collapses
the listed columns into a names column and a values column, one output row per
input row and collapsed column. -/
def pivot_longer (t : Table) (valueCols : List String) (namesTo valuesTo : String) : Table :=
  { header := restCols t.header valueCols ++ [namesTo, valuesTo],
    rows := t.rows.flatMap (fun r => valueCols.map (fun c => gatherRow t valueCols r c)) }

/-- Modelled from the spec: the error kinds of the reshaping component. -/
inductive ReshapeError : Type where
  | AmbiguousPivotError : ReshapeError
deriving DecidableEq

/-- Whether a list contains a repeated element. -/
def hasDup {α : Type} [DecidableEq α] : List α → Bool
  | [] => false
  | a :: l => if a ∈ l then true else hasDup l

/-- The implicit row-key columns of a `pivot_wider`: every column other than
`names_from` and `values_from`. -/
def wideKeyCols (t : Table) (nf vf : String) : List String :=
  t.header.filter (fun c => c ≠ nf ∧ c ≠ vf)

/-- The key tuple of a row for `pivot_wider`. -/
def wideKeyOf (t : Table) (nf vf : String) (r : List Val) : List Val :=
  (wideKeyCols t nf vf).map (fun c => rowGet t.header r c)

/-- The `names_from` cell of a row. -/
def wideName (t : Table) (nf : String) (r : List Val) : Val :=
  rowGet t.header r nf

/-- The (key tuple, names_from value) pair of every row, in row order. -/
def widePairs (t : Table) (nf vf : String) : List (List Val × Val) :=
  t.rows.map (fun r => (wideKeyOf t nf vf r, wideName t nf r))

/-- The distinct `names_from` values, in order of first occurrence. -/
def wideNames (t : Table) (nf : String) : List Val :=
  uniqueKeep (t.rows.map (wideName t nf))

/-- The distinct key tuples, in order of first occurrence. -/
def wideKeys (t : Table) (nf vf : String) : List (List Val) :=
  uniqueKeep (t.rows.map (wideKeyOf t nf vf))

/-- The output cell of `pivot_wider` for a key tuple and a `names_from` value:
the `values_from` cell of the matching input row, or the absent marker when no
input row matches. -/
def wideCell (t : Table) (nf vf : String) (key : List Val) (v : Val) : Val :=
  match t.rows.find? (fun r => wideKeyOf t nf vf r = key ∧ wideName t nf r = v) with
  | some r => rowGet t.header r vf
  | none => Val.absent

/-- The successful result of a `pivot_wider`: one row per distinct key tuple,
the key columns followed by one column per distinct `names_from` value. -/
def wideTable (t : Table) (nf vf : String) : Table :=
  { header := wideKeyCols t nf vf ++ (wideNames t nf).map Val.toName,
    rows := (wideKeys t nf vf).map (fun key =>
      key ++ (wideNames t nf).map (fun v => wideCell t nf vf key v)) }

/-- Modelled from the spec: `pivot_wider` (the tutorial's `spread`) fails with
`AmbiguousPivotError` when two rows share the same (key, names_from value) pair,
and otherwise produces one row per distinct key tuple and one column per
distinct `names_from` value. -/
def pivot_wider (t : Table) (nf vf : String) : Except ReshapeError Table :=
  if hasDup (widePairs t nf vf) then
    Except.error ReshapeError.AmbiguousPivotError
  else
    Except.ok (wideTable t nf vf)

/-- The spec's no-duplicate condition for `pivot_wider`: no two rows share the
same (key tuple, names_from value) pair. -/
def NoDupPairs (t : Table) (nf vf : String) : Prop :=
  (widePairs t nf vf).Nodup

/-- Reorder the columns of a table to a target header, looking cells up by
column name. -/
def Table.reorderTo (t : Table) (target : List String) : Table :=
  { header := target,
    rows := t.rows.map (fun r => target.map (fun c => rowGet t.header r c)) }

/-- Equality of tables up to row and column ordering: the headers are
permutations of one another, and after reordering the second table's columns to
the first's header, the multisets of rows agree. -/
def Table.EquivMod (t₁ t₂ : Table) : Prop :=
  t₁.header.Perm t₂.header ∧ (t₂.reorderTo t₁.header).rows.Perm t₁.rows

/-- Arithmetic mean of a list of rationals (0 on the empty list). -/
def mean (l : List ℚ) : ℚ := l.sum / (l.length : ℚ)

/-- Population variance of a list of rationals, a dispersion reduction usable by
`summarize` (exact rationals cannot carry a square root, so the dispersion
statistic is modelled by the variance). -/
def pvariance (l : List ℚ) : ℚ := mean (l.map (fun x => (x - mean l) * (x - mean l)))

/-- The row indices of the group with key tuple `key`: the positions of the rows
whose key tuple is `key`. -/
def groupIndices (t : Table) (keys : List String) (key : List Val) : List ℕ :=
  (List.range t.rows.length).filter (fun i => keyTuple t keys (t.rows.getD i []) = key)

/-- The spec's 4-row example table: columns `item`, `subid`, `correct`. -/
def sgfEx : Table :=
  { header := ["item", "subid", "correct"],
    rows := [[Val.str "beds", Val.num 1, Val.num 0],
             [Val.str "faces", Val.num 1, Val.num 1],
             [Val.str "beds", Val.num 2, Val.num 1],
             [Val.str "faces", Val.num 2, Val.num 0]] }

/-- The spec's error example: two rows share `subid = 1, item = beds`. -/
def ambigEx : Table :=
  { header := ["item", "subid", "correct"],
    rows := [[Val.str "beds", Val.num 1, Val.num 0],
             [Val.str "beds", Val.num 1, Val.num 1],
             [Val.str "faces", Val.num 2, Val.num 1]] }

/-- A wide example table for the round-trip property: one row per subject, one
column per item. -/
def wideEx : Table :=
  { header := ["subid", "beds", "faces"],
    rows := [[Val.num 1, Val.num 0, Val.num 1],
             [Val.num 2, Val.num 1, Val.num 0]] }

/-- A zero-row table with a spread-out column, exercising the round-trip
property's edge case. -/
def emptyEx : Table :=
  { header := ["subid", "beds"], rows := [] }

/-- A table for the grouped-pipeline example: columns `age_group`, `subid`,
`correct`, two observations per subject. -/
def groupedEx : Table :=
  { header := ["age_group", "subid", "correct"],
    rows := [[Val.str "a", Val.num 1, Val.num 0],
             [Val.str "a", Val.num 1, Val.num 1],
             [Val.str "a", Val.num 2, Val.num 1],
             [Val.str "a", Val.num 2, Val.num 1],
             [Val.str "b", Val.num 3, Val.num 1],
             [Val.str "b", Val.num 3, Val.num 1]] }

attribute [local semireducible] Rat.add Rat.mul Rat.inv Rat.sub

section UniqueKeepLemmas

variable {α β : Type} [DecidableEq α]

theorem mem_uniqueKeep (a : α) (l : List α) : a ∈ uniqueKeep l ↔ a ∈ l := by
  induction l with
  | nil => simp [uniqueKeep]
  | cons b l ih =>
    simp only [uniqueKeep, List.mem_cons, List.mem_filter, ih]
    by_cases hab : a = b
    · simp [hab]
    · simp [hab]

theorem uniqueKeep_nodup (l : List α) : (uniqueKeep l).Nodup := by
  induction l with
  | nil => simp [uniqueKeep]
  | cons b l ih =>
    simp only [uniqueKeep, List.nodup_cons]
    constructor
    · intro hmem
      have := (List.mem_filter.mp hmem).2
      simp at this
    · exact List.Nodup.filter _ ih

theorem uniqueKeep_eq_self {l : List α} (h : l.Nodup) : uniqueKeep l = l := by
  induction l with
  | nil => rfl
  | cons b l ih =>
    simp only [uniqueKeep]
    rw [ih (List.nodup_cons.mp h).2]
    congr 1
    apply List.filter_eq_self.mpr
    intro x hx
    have hb : b ∉ l := (List.nodup_cons.mp h).1
    simp only [decide_eq_true_eq]
    intro hxb
    exact hb (hxb ▸ hx)

theorem uniqueKeep_toFinset (l : List α) : (uniqueKeep l).toFinset = l.toFinset := by
  ext x
  simp [List.mem_toFinset, mem_uniqueKeep]

theorem length_uniqueKeep (l : List α) : (uniqueKeep l).length = l.toFinset.card := by
  rw [← uniqueKeep_toFinset, List.toFinset_card_of_nodup (uniqueKeep_nodup l)]

theorem uniqueKeep_append (l₁ l₂ : List α) :
    uniqueKeep (l₁ ++ l₂) = uniqueKeep l₁ ++ (uniqueKeep l₂).filter (fun x => x ∉ l₁) := by
  induction l₁ with
  | nil =>
    simp only [List.nil_append, uniqueKeep, List.nil_append]
    rw [List.filter_eq_self.mpr]
    intro x _
    simp
  | cons a l₁ ih =>
    rw [List.cons_append, uniqueKeep, uniqueKeep, ih, List.filter_append, List.cons_append]
    congr 2
    rw [List.filter_filter]
    apply List.filter_congr
    intro x _
    by_cases hxa : x = a
    · simp [hxa]
    · by_cases hxl : x ∈ l₁ <;> simp [hxa, hxl]

theorem uniqueKeep_const {l : List α} {a : α} (hne : l ≠ []) (hc : ∀ x ∈ l, x = a) :
    uniqueKeep l = [a] := by
  induction l with
  | nil => exact absurd rfl hne
  | cons b l ih =>
    have hb : b = a := hc b (List.mem_cons_self b l)
    simp only [uniqueKeep, hb]
    have : (uniqueKeep l).filter (fun x => x ≠ a) = [] := by
      apply List.filter_eq_nil_iff.mpr
      intro x hx
      have hxa : x = a := hc x (List.mem_cons_of_mem b ((mem_uniqueKeep x l).mp hx))
      simp [hxa]
    rw [this]

theorem uniqueKeep_flatMap_blocks (l : List β) (bs : β → List α) (f : β → α)
    (hl : ∀ b ∈ l, bs b ≠ []) (hc : ∀ b ∈ l, ∀ x ∈ bs b, x = f b)
    (hnd : (l.map f).Nodup) :
    uniqueKeep (l.flatMap bs) = l.map f := by
  induction l with
  | nil => rfl
  | cons b l ih =>
    rw [List.flatMap_cons, uniqueKeep_append]
    rw [uniqueKeep_const (hl b (List.mem_cons_self b l)) (hc b (List.mem_cons_self b l))]
    rw [ih (fun x hx => hl x (List.mem_cons_of_mem b hx))
        (fun x hx => hc x (List.mem_cons_of_mem b hx)) (List.nodup_cons.mp hnd).2]
    have hfb : f b ∉ l.map f := by
      simpa using (List.nodup_cons.mp hnd).1
    rw [List.filter_eq_self.mpr]
    · simp [List.map_cons]
    · intro x hx
      simp only [decide_eq_true_eq]
      intro hmem
      have hxfb : x = f b := hc b (List.mem_cons_self b l) x hmem
      exact hfb (hxfb ▸ hx)

theorem uniqueKeep_flatMap_same (l : List β) (b : List α) (hne : l ≠ []) :
    uniqueKeep (l.flatMap (fun _ => b)) = uniqueKeep b := by
  induction l with
  | nil => exact absurd rfl hne
  | cons x l ih =>
    rw [List.flatMap_cons]
    cases l with
    | nil => simp
    | cons y l =>
      rw [uniqueKeep_append, ih (by simp)]
      have : (uniqueKeep b).filter (fun z => z ∉ b) = [] := by
        apply List.filter_eq_nil_iff.mpr
        intro z hz
        simp [(mem_uniqueKeep z b).mp hz]
      rw [this, List.append_nil]

end UniqueKeepLemmas

section RowGetLemmas

theorem rowGet_append_left {hdr₁ hdr₂ : List String} {r₁ r₂ : List Val} {c : String}
    (hlen : r₁.length = hdr₁.length) (hc : c ∈ hdr₁) :
    rowGet (hdr₁ ++ hdr₂) (r₁ ++ r₂) c = rowGet hdr₁ r₁ c := by
  induction hdr₁ generalizing r₁ with
  | nil => exact absurd hc (List.not_mem_nil c)
  | cons h hs ih =>
    cases r₁ with
    | nil => simp at hlen
    | cons x xs =>
      simp only [List.cons_append, rowGet]
      by_cases hhc : h = c
      · simp [hhc]
      · simp only [hhc, if_false]
        have hc' : c ∈ hs := by
          rcases List.mem_cons.mp hc with h1 | h1
          · exact absurd h1.symm hhc
          · exact h1
        exact ih (by simpa using hlen) hc'

theorem rowGet_append_right {hdr₁ hdr₂ : List String} {r₁ r₂ : List Val} {c : String}
    (hlen : r₁.length = hdr₁.length) (hc : c ∉ hdr₁) :
    rowGet (hdr₁ ++ hdr₂) (r₁ ++ r₂) c = rowGet hdr₂ r₂ c := by
  induction hdr₁ generalizing r₁ with
  | nil =>
    have : r₁ = [] := List.length_eq_zero.mp (by simpa using hlen)
    simp [this]
  | cons h hs ih =>
    cases r₁ with
    | nil => simp at hlen
    | cons x xs =>
      simp only [List.cons_append, rowGet]
      have hhc : h ≠ c := fun e => hc (e ▸ List.mem_cons_self h hs)
      simp only [hhc, if_false]
      exact ih (by simpa using hlen) (fun h1 => hc (List.mem_cons_of_mem h h1))

theorem rowGet_map_self {hdr : List String} {c : String} (f : String → Val) (hc : c ∈ hdr) :
    rowGet hdr (hdr.map f) c = f c := by
  induction hdr with
  | nil => exact absurd hc (List.not_mem_nil c)
  | cons h hs ih =>
    simp only [List.map_cons, rowGet]
    by_cases hhc : h = c
    · simp [hhc]
    · simp only [hhc, if_false]
      exact ih (by
        rcases List.mem_cons.mp hc with h1 | h1
        · exact absurd h1.symm hhc
        · exact h1)

theorem map_rowGet_self {hdr : List String} {r : List Val}
    (hnd : hdr.Nodup) (hlen : r.length = hdr.length) :
    hdr.map (fun c => rowGet hdr r c) = r := by
  induction hdr generalizing r with
  | nil =>
    have : r = [] := List.length_eq_zero.mp (by simpa using hlen)
    simp [this]
  | cons h hs ih =>
    cases r with
    | nil => simp at hlen
    | cons x xs =>
      simp only [List.map_cons, rowGet, if_pos rfl]
      congr 1
      have hh : h ∉ hs := (List.nodup_cons.mp hnd).1
      have heq : List.map (fun c => if h = c then x else rowGet hs xs c) hs =
          hs.map (fun c => rowGet hs xs c) := by
        apply List.map_congr_left
        intro c hc
        have hne : h ≠ c := fun e => hh (e ▸ hc)
        simp [hne]
      rw [heq]
      exact ih (List.nodup_cons.mp hnd).2 (by simpa using hlen)

theorem map_eq_map_pointwise {α β : Type} {l : List α} {f g : α → β}
    (h : l.map f = l.map g) : ∀ c ∈ l, f c = g c := by
  induction l with
  | nil => intro c hc; exact absurd hc (List.not_mem_nil c)
  | cons a l ih =>
    simp only [List.map_cons, List.cons.injEq] at h
    intro c hc
    rcases List.mem_cons.mp hc with h1 | h1
    · rw [h1]; exact h.1
    · exact ih h.2 c h1

theorem rowGet_map_map {α : Type} {l : List α} {g : α → String} {h : α → Val} {a : α}
    (hnd : (l.map g).Nodup) (ha : a ∈ l) :
    rowGet (l.map g) (l.map h) (g a) = h a := by
  induction l with
  | nil => exact absurd ha (List.not_mem_nil a)
  | cons b l ih =>
    simp only [List.map_cons, rowGet]
    by_cases hba : g b = g a
    · have hab : a = b := by
        rcases List.mem_cons.mp ha with h1 | h1
        · exact h1
        · exfalso
          have : g a ∈ l.map g := List.mem_map_of_mem g h1
          exact (List.nodup_cons.mp hnd).1 (hba ▸ this)
      simp [hba, hab]
    · simp only [hba, if_false]
      have ha' : a ∈ l := by
        rcases List.mem_cons.mp ha with h1 | h1
        · exact absurd (h1 ▸ rfl) (Ne.symm hba)
        · exact h1
      exact ih (List.nodup_cons.mp hnd).2 ha'

end RowGetLemmas

section DupLemmas

variable {α : Type} [DecidableEq α]

theorem hasDup_eq_true_iff (l : List α) : hasDup l = true ↔ ¬ l.Nodup := by
  induction l with
  | nil => simp [hasDup]
  | cons a l ih =>
    simp only [hasDup, List.nodup_cons]
    by_cases hmem : a ∈ l
    · simp [hmem]
    · simp [hmem, ih]

theorem hasDup_eq_false_iff (l : List α) : hasDup l = false ↔ l.Nodup := by
  constructor
  · intro h
    by_contra hnd
    rw [← hasDup_eq_true_iff] at hnd
    rw [h] at hnd
    exact Bool.false_ne_true hnd
  · intro h
    by_contra hne
    have : hasDup l = true := eq_true_of_ne_false hne
    exact (hasDup_eq_true_iff l).mp this h

theorem not_nodup_iff_exists_dup (l : List α) :
    ¬ l.Nodup ↔ ∃ i j : Fin l.length, i < j ∧ l.get i = l.get j := by
  constructor
  · intro hnd
    by_contra hno
    push_neg at hno
    apply hnd
    rw [List.nodup_iff_injective_get]
    intro i j hij
    by_contra hne
    rcases lt_or_gt_of_ne hne with hlt | hgt
    · exact hno i j hlt hij
    · exact hno j i hgt hij.symm
  · rintro ⟨i, j, hij, heq⟩ hnd
    have := List.nodup_iff_injective_get.mp hnd heq
    rw [this] at hij
    exact lt_irrefl _ hij

theorem find?_congr {α : Type} (p q : α → Bool) (l : List α) (h : ∀ x, p x = q x) :
    l.find? p = l.find? q := by
  have : p = q := funext h
  rw [this]

theorem find?_eq_some_self_of_nodup_map {α β : Type} [DecidableEq β]
    {f : α → β} {l : List α} {x : α}
    (hnd : (l.map f).Nodup) (hx : x ∈ l) :
    l.find? (fun y => f y = f x) = some x := by
  induction l with
  | nil => exact absurd hx (List.not_mem_nil x)
  | cons a l ih =>
    by_cases hfa : f a = f x
    · have hax : x = a := by
        rcases List.mem_cons.mp hx with h1 | h1
        · exact h1
        · exfalso
          have : f x ∈ l.map f := List.mem_map_of_mem f h1
          exact (List.nodup_cons.mp hnd).1 (hfa ▸ this)
      rw [List.find?_cons_of_pos _ (by simp [hfa])]
      rw [hax]
    · rw [List.find?_cons_of_neg _ (by simp [hfa])]
      have hx' : x ∈ l := by
        rcases List.mem_cons.mp hx with h1 | h1
        · exact absurd (by rw [h1]) hfa
        · exact h1
      exact ih (List.nodup_cons.mp hnd).2 hx'

end DupLemmas

section CountLemmas

theorem countP_eq_one_of_nodup_mem {α : Type} [DecidableEq α] {l : List α} {a : α}
    (hnd : l.Nodup) (ha : a ∈ l) : l.countP (fun x => decide (a = x)) = 1 := by
  induction l with
  | nil => exact absurd ha (List.not_mem_nil a)
  | cons b l ih =>
    by_cases hab : a = b
    · rw [List.countP_cons_of_pos _ _ (by simp [hab])]
      have hbl : b ∉ l := (List.nodup_cons.mp hnd).1
      have hz : l.countP (fun x => decide (a = x)) = 0 := by
        apply List.countP_eq_zero.mpr
        intro x hx
        simp only [decide_eq_true_eq]
        intro e
        subst e
        exact hbl (hab ▸ hx)
      rw [hz]
    · rw [List.countP_cons_of_neg _ _ (by simp [hab])]
      have ha' : a ∈ l := by
        rcases List.mem_cons.mp ha with h1 | h1
        · exact absurd h1 hab
        · exact h1
      exact ih (List.nodup_cons.mp hnd).2 ha'

end CountLemmas

/-- C7: `filter` returns a Table with the same column set containing exactly the
rows on which the pure row predicate holds, in their original relative order
(order as a sublist, exactness as membership and multiplicity). -/
theorem filter_contract (t : Table) (p : List (String × Val) → Bool) :
    (t.filter p).header = t.header ∧
    (t.filter p).rows.Sublist t.rows ∧
    (∀ r ∈ (t.filter p).rows, p (t.header.zip r) = true) ∧
    (∀ r ∈ t.rows, p (t.header.zip r) = true → r ∈ (t.filter p).rows) ∧
    (∀ r : List Val, p (t.header.zip r) = true →
      (t.filter p).rows.count r = t.rows.count r) := by
  refine ⟨rfl, List.filter_sublist _, ?_, ?_, ?_⟩
  · intro r hr
    exact (List.mem_filter.mp hr).2
  · intro r hr hp
    exact List.mem_filter.mpr ⟨hr, hp⟩
  · intro r hp
    exact List.count_filter hp

/-- C7 witness: the contract applied to the spec's example table with the
predicate selecting `subid = 1`. -/
theorem filter_contract_witness :
    (sgfEx.filter (fun row => rowGet ["item", "subid", "correct"] (row.map Prod.snd) "subid"
        = Val.num 1)).rows.count [Val.str "beds", Val.num 1, Val.num 0] =
      sgfEx.rows.count [Val.str "beds", Val.num 1, Val.num 0] :=
  (filter_contract sgfEx _).2.2.2.2 [Val.str "beds", Val.num 1, Val.num 0] (by decide)

/-- C8: filtering twice with the same pure predicate equals filtering once. -/
theorem filter_idempotent (t : Table) (p : List (String × Val) → Bool) :
    (t.filter p).filter p = t.filter p := by
  have h1 : (t.filter p).filter p =
      Table.mk t.header ((t.rows.filter (fun r => p (t.header.zip r))).filter
        (fun r => p (t.header.zip r))) := rfl
  have h2 : (t.rows.filter (fun r => p (t.header.zip r))).filter
      (fun r => p (t.header.zip r)) = t.rows.filter (fun r => p (t.header.zip r)) :=
    List.filter_eq_self.mpr (fun r hr => (List.mem_filter.mp hr).2)
  rw [h1, h2]
  rfl

/-- C6: `group_by` performs no computation beyond attaching the keys, and the
induced grouping is a total and disjoint partition of the row indices: every
row index lies in exactly one group's index set. -/
theorem group_by_partition (t : Table) (ks : List String) :
    (group_by t ks).table = t ∧ (group_by t ks).groups = ks ∧
    ∀ i : Fin t.rows.length,
      (distinctKeys t ks).countP (fun key => decide (i.val ∈ groupIndices t ks key)) = 1 := by
  refine ⟨rfl, rfl, ?_⟩
  intro i
  have hget : t.rows.getD i.val [] = t.rows.get i := by
    rw [List.getD_eq_getElem t.rows [] i.isLt, List.get_eq_getElem]
  have hcongr : ∀ key ∈ distinctKeys t ks,
      (decide (i.val ∈ groupIndices t ks key) = true) ↔
      (decide (keyTuple t ks (t.rows.get i) = key) = true) := by
    intro key _
    simp only [decide_eq_true_eq, groupIndices, List.mem_filter, List.mem_range]
    constructor
    · rintro ⟨_, h2⟩
      rw [hget] at h2
      simpa using h2
    · intro h
      refine ⟨i.isLt, ?_⟩
      rw [hget]
      simpa using h
  rw [List.countP_congr hcongr]
  apply countP_eq_one_of_nodup_mem
  · exact uniqueKeep_nodup _
  · show keyTuple t ks (t.rows.get i) ∈ uniqueKeep (t.rows.map (keyTuple t ks))
    rw [mem_uniqueKeep]
    exact List.mem_map_of_mem _ (List.get_mem t.rows i.val i.isLt)

/-- C6 witness: the partition property applied to the example table grouped by
`age_group`, at row index 0. -/
theorem group_by_partition_witness :
    (distinctKeys groupedEx ["age_group"]).countP
      (fun key => decide ((0 : ℕ) ∈ groupIndices groupedEx ["age_group"] key)) = 1 :=
  (group_by_partition groupedEx ["age_group"]).2.2 ⟨0, by decide⟩

theorem pairs_dup_iff (t : Table) (nf vf : String) :
    (¬ (widePairs t nf vf).Nodup) ↔
    ∃ i j : Fin t.rows.length, i < j ∧
      wideKeyOf t nf vf (t.rows.get i) = wideKeyOf t nf vf (t.rows.get j) ∧
      wideName t nf (t.rows.get i) = wideName t nf (t.rows.get j) := by
  rw [not_nodup_iff_exists_dup]
  have hlen : (widePairs t nf vf).length = t.rows.length := List.length_map _ _
  constructor
  · rintro ⟨i, j, hij, heq⟩
    have hi : i.val < t.rows.length := hlen ▸ i.isLt
    have hj : j.val < t.rows.length := hlen ▸ j.isLt
    have heq' : (wideKeyOf t nf vf (t.rows.get ⟨i.val, hi⟩),
        wideName t nf (t.rows.get ⟨i.val, hi⟩)) =
        (wideKeyOf t nf vf (t.rows.get ⟨j.val, hj⟩),
        wideName t nf (t.rows.get ⟨j.val, hj⟩)) := by
      have e1 := heq
      simp only [List.get_eq_getElem, widePairs, List.getElem_map] at e1 ⊢
      exact e1
    obtain ⟨e1, e2⟩ := Prod.ext_iff.mp heq'
    exact ⟨⟨i.val, hi⟩, ⟨j.val, hj⟩, hij, e1, e2⟩
  · rintro ⟨i, j, hij, e1, e2⟩
    have hi : i.val < (widePairs t nf vf).length := hlen.symm ▸ i.isLt
    have hj : j.val < (widePairs t nf vf).length := hlen.symm ▸ j.isLt
    refine ⟨⟨i.val, hi⟩, ⟨j.val, hj⟩, hij, ?_⟩
    simp only [List.get_eq_getElem, widePairs, List.getElem_map]
    have e1' := e1
    have e2' := e2
    simp only [List.get_eq_getElem] at e1' e2'
    rw [e1', e2']

/-- C3: `pivot_wider` fails with `AmbiguousPivotError` exactly when two distinct
input rows share the same (key tuple, names_from value) pair — in which case no
table is produced — and the spec's example (two rows sharing
`subid = 1, item = beds`) does fail with `AmbiguousPivotError`. -/
theorem pivot_wider_error_iff :
    (∀ (t : Table) (nf vf : String),
      pivot_wider t nf vf = Except.error ReshapeError.AmbiguousPivotError ↔
      ∃ i j : Fin t.rows.length, i < j ∧
        wideKeyOf t nf vf (t.rows.get i) = wideKeyOf t nf vf (t.rows.get j) ∧
        wideName t nf (t.rows.get i) = wideName t nf (t.rows.get j)) ∧
    pivot_wider ambigEx "item" "correct" =
      Except.error ReshapeError.AmbiguousPivotError := by
  constructor
  · intro t nf vf
    cases hd : hasDup (widePairs t nf vf) with
    | true =>
      simp only [pivot_wider, hd, if_true]
      constructor
      · intro _
        exact (pairs_dup_iff t nf vf).mp ((hasDup_eq_true_iff _).mp hd)
      · intro _
        trivial
    | false =>
      simp only [pivot_wider, hd, Bool.false_eq_true, if_false]
      constructor
      · intro hcon
        exact absurd hcon (by simp)
      · intro hex
        exfalso
        have hnd : (widePairs t nf vf).Nodup := (hasDup_eq_false_iff _).mp hd
        exact ((pairs_dup_iff t nf vf).mpr hex) hnd
  · rfl

section FlatMapLemmas

theorem length_flatMap_const {α β : Type} (l : List α) (f : α → List β) (k : ℕ)
    (hk : ∀ a ∈ l, (f a).length = k) : (l.flatMap f).length = l.length * k := by
  induction l with
  | nil => simp
  | cons a l ih =>
    rw [List.flatMap_cons, List.length_append, hk a (List.mem_cons_self a l),
      ih (fun x hx => hk x (List.mem_cons_of_mem a hx)), List.length_cons,
      Nat.succ_mul, Nat.add_comm]

theorem getElem?_flatMap_blocks {α β : Type} (l : List α) (f : α → List β) (k : ℕ)
    (hk : ∀ a ∈ l, (f a).length = k) (i j : ℕ) (hi : i < l.length) (hj : j < k) :
    (l.flatMap f)[i * k + j]? = (f (l.get ⟨i, hi⟩))[j]? := by
  induction l generalizing i with
  | nil => simp at hi
  | cons a l ih =>
    rw [List.flatMap_cons]
    cases i with
    | zero =>
      rw [Nat.zero_mul, Nat.zero_add]
      exact List.getElem?_append_left (by rw [hk a (List.mem_cons_self a l)]; exact hj)
    | succ i' =>
      have hka : (f a).length = k := hk a (List.mem_cons_self a l)
      have hge : (f a).length ≤ (i' + 1) * k + j := by
        rw [hka, Nat.succ_mul]
        omega
      rw [List.getElem?_append_right hge]
      have harith : (i' + 1) * k + j - (f a).length = i' * k + j := by
        rw [hka, Nat.succ_mul]
        omega
      rw [harith]
      exact ih (fun x hx => hk x (List.mem_cons_of_mem a hx)) i' (by simpa using hi)

end FlatMapLemmas

/-- C4: `pivot_longer` yields one output row per input row and collapsed
column; the non-collapsed cells are repeated for each collapsed column, the
names column holds the collapsed column's name and the values column holds its
cell value. -/
theorem pivot_longer_contract (t : Table) (cols : List String) (k v : String)
    (hwf : t.WF) (hsub : ∀ c ∈ cols, c ∈ t.header)
    (hk : k ∉ t.header) (hv : v ∉ t.header) (hkv : k ≠ v) :
    (pivot_longer t cols k v).rows.length = t.rows.length * cols.length ∧
    ∀ (i j : ℕ) (hi : i < t.rows.length) (hj : j < cols.length),
      ∃ hrow : i * cols.length + j < (pivot_longer t cols k v).rows.length,
        (∀ c ∈ restCols t.header cols,
          rowGet (pivot_longer t cols k v).header
              ((pivot_longer t cols k v).rows.get ⟨i * cols.length + j, hrow⟩) c =
            rowGet t.header (t.rows.get ⟨i, hi⟩) c) ∧
        rowGet (pivot_longer t cols k v).header
            ((pivot_longer t cols k v).rows.get ⟨i * cols.length + j, hrow⟩) k =
          Val.str (cols.get ⟨j, hj⟩) ∧
        rowGet (pivot_longer t cols k v).header
            ((pivot_longer t cols k v).rows.get ⟨i * cols.length + j, hrow⟩) v =
          rowGet t.header (t.rows.get ⟨i, hi⟩) (cols.get ⟨j, hj⟩) := by
  have hblock : ∀ r ∈ t.rows,
      ((fun r => cols.map (fun c => gatherRow t cols r c)) r).length = cols.length := by
    intro r _
    exact List.length_map _ _
  have hlen : (pivot_longer t cols k v).rows.length = t.rows.length * cols.length :=
    length_flatMap_const t.rows _ cols.length hblock
  refine ⟨hlen, ?_⟩
  intro i j hi hj
  have hrow : i * cols.length + j < (pivot_longer t cols k v).rows.length := by
    rw [hlen]
    calc i * cols.length + j < i * cols.length + cols.length := by omega
    _ = (i + 1) * cols.length := by rw [Nat.succ_mul]
    _ ≤ t.rows.length * cols.length := Nat.mul_le_mul_right _ hi
  refine ⟨hrow, ?_⟩
  set r := t.rows.get ⟨i, hi⟩ with hr
  set cj := cols.get ⟨j, hj⟩ with hcj
  have hrowval : (pivot_longer t cols k v).rows.get ⟨i * cols.length + j, hrow⟩ =
      gatherRow t cols r cj := by
    have h1 : (pivot_longer t cols k v).rows[i * cols.length + j]? =
        ((cols.map (fun c => gatherRow t cols r c)))[j]? := by
      show (t.rows.flatMap (fun r => cols.map (fun c => gatherRow t cols r c)))[i * cols.length + j]? = _
      exact getElem?_flatMap_blocks t.rows _ cols.length hblock i j hi hj
    have h2 : ((cols.map (fun c => gatherRow t cols r c)))[j]? =
        some (gatherRow t cols r cj) := by
      rw [List.getElem?_map, List.getElem?_eq_getElem hj]
      rfl
    have h3 : (pivot_longer t cols k v).rows[i * cols.length + j]? =
        some ((pivot_longer t cols k v).rows.get ⟨i * cols.length + j, hrow⟩) := by
      rw [List.getElem?_eq_getElem hrow, List.get_eq_getElem]
    rw [h3, h2] at h1
    exact Option.some.inj h1
  rw [hrowval]
  have hlenrest : ((restCols t.header cols).map (fun c2 => rowGet t.header r c2)).length =
      (restCols t.header cols).length := List.length_map _ _
  have hknotrest : k ∉ restCols t.header cols := by
    intro hmem
    exact hk (List.mem_of_mem_filter hmem)
  have hvnotrest : v ∉ restCols t.header cols := by
    intro hmem
    exact hv (List.mem_of_mem_filter hmem)
  refine ⟨?_, ?_, ?_⟩
  · intro c hc
    show rowGet (restCols t.header cols ++ [k, v])
        ((restCols t.header cols).map (fun c2 => rowGet t.header r c2) ++
          [Val.str cj, rowGet t.header r cj]) c = _
    rw [rowGet_append_left hlenrest hc]
    exact rowGet_map_self _ hc
  · show rowGet (restCols t.header cols ++ [k, v])
        ((restCols t.header cols).map (fun c2 => rowGet t.header r c2) ++
          [Val.str cj, rowGet t.header r cj]) k = _
    rw [rowGet_append_right hlenrest hknotrest]
    simp [rowGet]
  · show rowGet (restCols t.header cols ++ [k, v])
        ((restCols t.header cols).map (fun c2 => rowGet t.header r c2) ++
          [Val.str cj, rowGet t.header r cj]) v = _
    rw [rowGet_append_right hlenrest hvnotrest]
    simp [rowGet, hkv]

section SummarizeLemmas

theorem summarize_rows_length (gt : GroupedTable) (aggs : List Agg) :
    (summarize gt aggs).table.rows.length =
      (gt.table.rows.map (keyTuple gt.table gt.groups)).toFinset.card := by
  show ((distinctKeys gt.table gt.groups).map _).length = _
  rw [List.length_map]
  exact length_uniqueKeep _

theorem summarize_get_spec (gt : GroupedTable) (aggs : List Agg)
    (hnames : (aggs.map Agg.name).Nodup)
    (hdisj : ∀ a ∈ aggs, a.name ∉ gt.groups)
    (i : Fin (summarize gt aggs).table.rows.length) :
    ∃ hi : i.val < (distinctKeys gt.table gt.groups).length,
      gt.groups.map (fun c => rowGet (summarize gt aggs).table.header
          ((summarize gt aggs).table.rows.get i) c) =
        (distinctKeys gt.table gt.groups).get ⟨i.val, hi⟩ ∧
      ∀ a ∈ aggs,
        rowGet (summarize gt aggs).table.header
            ((summarize gt aggs).table.rows.get i) a.name =
          applyPolicy a.policy a.red
            (groupVals gt.table gt.groups
              ((distinctKeys gt.table gt.groups).get ⟨i.val, hi⟩) a.src) := by
  have hlen : (summarize gt aggs).table.rows.length =
      (distinctKeys gt.table gt.groups).length := List.length_map _ _
  have hi : i.val < (distinctKeys gt.table gt.groups).length := hlen ▸ i.isLt
  refine ⟨hi, ?_⟩
  set key := (distinctKeys gt.table gt.groups).get ⟨i.val, hi⟩ with hkeydef
  have hrowval : (summarize gt aggs).table.rows.get i =
      key ++ aggs.map (fun a =>
        applyPolicy a.policy a.red (groupVals gt.table gt.groups key a.src)) := by
    show ((distinctKeys gt.table gt.groups).map (fun key =>
      key ++ aggs.map (fun a =>
        applyPolicy a.policy a.red (groupVals gt.table gt.groups key a.src)))).get
          ⟨i.val, i.isLt⟩ = _
    rw [List.get_eq_getElem]
    simp only [List.getElem_map]
    rw [hkeydef, List.get_eq_getElem]
  obtain ⟨r, hr, hkeyr⟩ :
      ∃ r, r ∈ gt.table.rows ∧ keyTuple gt.table gt.groups r = key := by
    have hmem : key ∈ distinctKeys gt.table gt.groups := by
      rw [hkeydef]
      exact List.get_mem _ _ _
    have : key ∈ gt.table.rows.map (keyTuple gt.table gt.groups) :=
      (mem_uniqueKeep _ _).mp hmem
    exact List.mem_map.mp this
  have hkeymap : key = gt.groups.map (fun c => rowGet gt.table.header r c) := by
    rw [← hkeyr]
    rfl
  have hlenkey : key.length = gt.groups.length := by
    rw [hkeymap, List.length_map]
  constructor
  · have hpt : ∀ c ∈ gt.groups,
        rowGet (summarize gt aggs).table.header ((summarize gt aggs).table.rows.get i) c =
          rowGet gt.table.header r c := by
      intro c hc
      rw [hrowval]
      show rowGet (gt.groups ++ aggs.map Agg.name) (key ++ _) c = _
      rw [rowGet_append_left hlenkey hc, hkeymap]
      exact rowGet_map_self _ hc
    rw [List.map_congr_left hpt, ← hkeymap]
  · intro a ha
    rw [hrowval]
    show rowGet (gt.groups ++ aggs.map Agg.name) (key ++ aggs.map (fun a =>
      applyPolicy a.policy a.red (groupVals gt.table gt.groups key a.src))) a.name = _
    rw [rowGet_append_right hlenkey (hdisj a ha)]
    exact rowGet_map_map hnames ha

end SummarizeLemmas

/-- C5: `summarize` produces exactly one output row per distinct key tuple of
the grouped input (row count equals the number of distinct key combinations,
and rows with equal key parts coincide), carrying the key columns through plus
one column per aggregation, each aggregation cell being the reduction applied
to the source column restricted to the group's rows. -/
theorem summarize_contract (t : Table) (ks : List String) (aggs : List Agg)
    (hnames : (aggs.map Agg.name).Nodup) (hdisj : ∀ a ∈ aggs, a.name ∉ ks) :
    (summarize (group_by t ks) aggs).table.rows.length =
      (t.rows.map (keyTuple t ks)).toFinset.card ∧
    (summarize (group_by t ks) aggs).table.header = ks ++ aggs.map Agg.name ∧
    (∀ key ∈ t.rows.map (keyTuple t ks),
      ∃ i : Fin (summarize (group_by t ks) aggs).table.rows.length,
        ks.map (fun c => rowGet (summarize (group_by t ks) aggs).table.header
            ((summarize (group_by t ks) aggs).table.rows.get i) c) = key ∧
        ∀ a ∈ aggs,
          rowGet (summarize (group_by t ks) aggs).table.header
              ((summarize (group_by t ks) aggs).table.rows.get i) a.name =
            applyPolicy a.policy a.red (groupVals t ks key a.src)) ∧
    (∀ i1 i2 : Fin (summarize (group_by t ks) aggs).table.rows.length,
      ks.map (fun c => rowGet (summarize (group_by t ks) aggs).table.header
          ((summarize (group_by t ks) aggs).table.rows.get i1) c) =
        ks.map (fun c => rowGet (summarize (group_by t ks) aggs).table.header
          ((summarize (group_by t ks) aggs).table.rows.get i2) c) → i1 = i2) := by
  refine ⟨summarize_rows_length (group_by t ks) aggs, rfl, ?_, ?_⟩
  · intro key hkey
    have hmem : key ∈ distinctKeys t ks := (mem_uniqueKeep _ _).mpr hkey
    obtain ⟨i0, hi0⟩ := List.mem_iff_get.mp hmem
    have hlen : (summarize (group_by t ks) aggs).table.rows.length =
        (distinctKeys t ks).length := List.length_map _ _
    refine ⟨⟨i0.val, hlen.symm ▸ i0.isLt⟩, ?_⟩
    obtain ⟨hi, h1, h2⟩ := summarize_get_spec (group_by t ks) aggs hnames hdisj
      ⟨i0.val, hlen.symm ▸ i0.isLt⟩
    have hgeteq : (distinctKeys t ks).get ⟨i0.val, hi⟩ = key := by
      rw [← hi0]
    have h1' : ks.map (fun c => rowGet (summarize (group_by t ks) aggs).table.header
        ((summarize (group_by t ks) aggs).table.rows.get ⟨i0.val, hlen.symm ▸ i0.isLt⟩) c) =
        (distinctKeys t ks).get ⟨i0.val, hi⟩ := h1
    have h2' : ∀ a ∈ aggs,
        rowGet (summarize (group_by t ks) aggs).table.header
            ((summarize (group_by t ks) aggs).table.rows.get ⟨i0.val, hlen.symm ▸ i0.isLt⟩)
            a.name =
          applyPolicy a.policy a.red
            (groupVals t ks ((distinctKeys t ks).get ⟨i0.val, hi⟩) a.src) := h2
    rw [hgeteq] at h1' h2'
    exact ⟨h1', h2'⟩
  · intro i1 i2 heq
    obtain ⟨hi1, h11, _⟩ := summarize_get_spec (group_by t ks) aggs hnames hdisj i1
    obtain ⟨hi2, h21, _⟩ := summarize_get_spec (group_by t ks) aggs hnames hdisj i2
    have h11' : ks.map (fun c => rowGet (summarize (group_by t ks) aggs).table.header
        ((summarize (group_by t ks) aggs).table.rows.get i1) c) =
        (distinctKeys t ks).get ⟨i1.val, hi1⟩ := h11
    have h21' : ks.map (fun c => rowGet (summarize (group_by t ks) aggs).table.header
        ((summarize (group_by t ks) aggs).table.rows.get i2) c) =
        (distinctKeys t ks).get ⟨i2.val, hi2⟩ := h21
    rw [h11', h21'] at heq
    have hfin := (List.Nodup.get_inj_iff (uniqueKeep_nodup _)).mp heq
    have hv : (⟨i1.val, hi1⟩ : Fin (distinctKeys t ks).length).val =
        (⟨i2.val, hi2⟩ : Fin (distinctKeys t ks).length).val := congrArg Fin.val hfin
    exact Fin.ext hv

/-- C5 witness: the contract applied to the grouped example table (three
distinct subjects would give three rows; here two distinct age groups give the
distinct-key count). -/
theorem summarize_contract_witness :
    (summarize (group_by groupedEx ["age_group"]) [aggOf "correct" mean "correct"]).table.rows.length =
      (groupedEx.rows.map (keyTuple groupedEx ["age_group"])).toFinset.card :=
  (summarize_contract groupedEx ["age_group"] [aggOf "correct" mean "correct"]
    (by decide)
    (by
      intro a ha
      rw [List.mem_singleton] at ha
      subst ha
      decide)).1

theorem filterMap_toNum_dropAbsent (vs : List Val) :
    (dropAbsent vs).filterMap Val.toNum = vs.filterMap Val.toNum := by
  induction vs with
  | nil => rfl
  | cons x vs ih =>
    cases x with
    | absent => simpa [dropAbsent, Val.toNum] using ih
    | str s => simpa [dropAbsent, Val.toNum] using ih
    | num q => simpa [dropAbsent, Val.toNum] using ih

/-- C9: every aggregation carries a caller-selected absent-value policy;
`skip-absent` is the default (absent values are removed before the reduction is
applied), `propagate-absent` makes the result absent as soon as an input is
absent, and `summarize` evaluates each aggregation's cell under that
aggregation's own policy. -/
theorem absent_policy_contract :
    defaultAbsentPolicy = AbsentPolicy.skipAbsent ∧
    (∀ (n : String) (f : List ℚ → ℚ) (s : String),
      (aggOf n f s).policy = AbsentPolicy.skipAbsent) ∧
    (∀ (f : List ℚ → ℚ) (vs : List Val),
      applyPolicy AbsentPolicy.skipAbsent f vs =
        Val.num (f ((dropAbsent vs).filterMap Val.toNum))) ∧
    (∀ (f : List ℚ → ℚ) (vs : List Val), Val.absent ∈ vs →
      applyPolicy AbsentPolicy.propagateAbsent f vs = Val.absent) ∧
    (∀ (f : List ℚ → ℚ) (vs : List Val), Val.absent ∉ vs →
      applyPolicy AbsentPolicy.propagateAbsent f vs = Val.num (f (vs.filterMap Val.toNum))) ∧
    (∀ (gt : GroupedTable) (aggs : List Agg),
      (aggs.map Agg.name).Nodup → (∀ a ∈ aggs, a.name ∉ gt.groups) →
      ∀ (i : Fin (summarize gt aggs).table.rows.length) (a : Agg), a ∈ aggs →
        ∃ key, rowGet (summarize gt aggs).table.header
            ((summarize gt aggs).table.rows.get i) a.name =
          applyPolicy a.policy a.red (groupVals gt.table gt.groups key a.src)) := by
  refine ⟨rfl, fun n f s => rfl, ?_, ?_, ?_, ?_⟩
  · intro f vs
    show Val.num (f (vs.filterMap Val.toNum)) = _
    rw [filterMap_toNum_dropAbsent]
  · intro f vs h
    simp [applyPolicy, h]
  · intro f vs h
    simp [applyPolicy, h]
  · intro gt aggs hnames hdisj i a ha
    obtain ⟨hi, _, h2⟩ := summarize_get_spec gt aggs hnames hdisj i
    exact ⟨_, h2 a ha⟩

/-- C9 witness: the propagate-absent policy applied to a concrete absent
input. -/
theorem absent_policy_contract_witness :
    applyPolicy AbsentPolicy.propagateAbsent mean [Val.absent] = Val.absent :=
  absent_policy_contract.2.2.2.1 mean [Val.absent] (by decide)

/-- C10: `summarize` leaves its result grouped by all but the last key column,
so a second `summarize` aggregates over the remaining keys: after grouping by
two keys and summarizing, the result is grouped by the first key alone, a
second `summarize` has one row per distinct first-key value, and on the
concrete example the double summarize returns the mean and the dispersion
(variance) of the per-subject means per age group. -/
theorem summarize_regroups (t : Table) (k1 k2 : String) (aggs aggs2 : List Agg) :
    (summarize (group_by t [k1, k2]) aggs).groups = [k1] ∧
    (∀ (gt : GroupedTable) (ags : List Agg),
      (summarize gt ags).groups = gt.groups.dropLast) ∧
    (summarize (summarize (group_by t [k1, k2]) aggs) aggs2).table.rows.length =
      ((summarize (group_by t [k1, k2]) aggs).table.rows.map
        (keyTuple (summarize (group_by t [k1, k2]) aggs).table [k1])).toFinset.card ∧
    (summarize (summarize (group_by groupedEx ["age_group", "subid"])
        [aggOf "correct" mean "correct"])
        [aggOf "mean_correct" mean "correct",
         aggOf "var_correct" pvariance "correct"]).table =
      { header := ["age_group", "mean_correct", "var_correct"],
        rows := [[Val.str "a", Val.num (3/4), Val.num (1/16)],
                 [Val.str "b", Val.num 1, Val.num 0]] } := by
  refine ⟨rfl, fun gt ags => rfl, ?_, ?_⟩
  · exact summarize_rows_length (summarize (group_by t [k1, k2]) aggs) aggs2
  · decide

section WideTableLemmas

theorem wideTable_get_spec (t : Table) (nf vf : String)
    (hnames : ((wideNames t nf).map Val.toName).Nodup)
    (hdisj : ∀ u ∈ wideNames t nf, Val.toName u ∉ wideKeyCols t nf vf)
    (i : Fin (wideTable t nf vf).rows.length) :
    ∃ hi : i.val < (wideKeys t nf vf).length,
      (wideKeyCols t nf vf).map (fun c => rowGet (wideTable t nf vf).header
          ((wideTable t nf vf).rows.get i) c) = (wideKeys t nf vf).get ⟨i.val, hi⟩ ∧
      ∀ u ∈ wideNames t nf,
        rowGet (wideTable t nf vf).header ((wideTable t nf vf).rows.get i)
            (Val.toName u) =
          wideCell t nf vf ((wideKeys t nf vf).get ⟨i.val, hi⟩) u := by
  have hlen : (wideTable t nf vf).rows.length = (wideKeys t nf vf).length :=
    List.length_map _ _
  have hi : i.val < (wideKeys t nf vf).length := hlen ▸ i.isLt
  refine ⟨hi, ?_⟩
  set key := (wideKeys t nf vf).get ⟨i.val, hi⟩ with hkeydef
  have hrowval : (wideTable t nf vf).rows.get i =
      key ++ (wideNames t nf).map (fun v => wideCell t nf vf key v) := by
    show ((wideKeys t nf vf).map (fun key =>
      key ++ (wideNames t nf).map (fun v => wideCell t nf vf key v))).get
        ⟨i.val, i.isLt⟩ = _
    rw [List.get_eq_getElem]
    simp only [List.getElem_map]
    rw [hkeydef, List.get_eq_getElem]
  obtain ⟨r, hr, hkeyr⟩ : ∃ r, r ∈ t.rows ∧ wideKeyOf t nf vf r = key := by
    have hmem : key ∈ wideKeys t nf vf := by
      rw [hkeydef]
      exact List.get_mem _ _ _
    have : key ∈ t.rows.map (wideKeyOf t nf vf) := (mem_uniqueKeep _ _).mp hmem
    exact List.mem_map.mp this
  have hkeymap : key = (wideKeyCols t nf vf).map (fun c => rowGet t.header r c) := by
    rw [← hkeyr]
    rfl
  have hlenkey : key.length = (wideKeyCols t nf vf).length := by
    rw [hkeymap, List.length_map]
  constructor
  · have hpt : ∀ c ∈ wideKeyCols t nf vf,
        rowGet (wideTable t nf vf).header ((wideTable t nf vf).rows.get i) c =
          rowGet t.header r c := by
      intro c hc
      rw [hrowval]
      show rowGet (wideKeyCols t nf vf ++ (wideNames t nf).map Val.toName)
        (key ++ _) c = _
      rw [rowGet_append_left hlenkey hc, hkeymap]
      exact rowGet_map_self _ hc
    rw [List.map_congr_left hpt, ← hkeymap]
  · intro u hu
    rw [hrowval]
    show rowGet (wideKeyCols t nf vf ++ (wideNames t nf).map Val.toName)
      (key ++ (wideNames t nf).map (fun v => wideCell t nf vf key v))
      (Val.toName u) = _
    rw [rowGet_append_right hlenkey (hdisj u hu)]
    exact rowGet_map_map hnames hu

theorem wideCell_of_mem (t : Table) (nf vf : String) (hnodup : NoDupPairs t nf vf)
    {r : List Val} (hr : r ∈ t.rows) :
    wideCell t nf vf (wideKeyOf t nf vf r) (wideName t nf r) = rowGet t.header r vf := by
  have hfind : t.rows.find? (fun y =>
      wideKeyOf t nf vf y = wideKeyOf t nf vf r ∧ wideName t nf y = wideName t nf r) =
      some r := by
    have hcongr : t.rows.find? (fun y =>
        wideKeyOf t nf vf y = wideKeyOf t nf vf r ∧ wideName t nf y = wideName t nf r) =
        t.rows.find? (fun y => (wideKeyOf t nf vf y, wideName t nf y) =
          (wideKeyOf t nf vf r, wideName t nf r)) := by
      apply find?_congr
      intro y
      apply decide_eq_decide.mpr
      constructor
      · rintro ⟨h1, h2⟩
        rw [h1, h2]
      · intro h
        exact Prod.ext_iff.mp h
    rw [hcongr]
    exact find?_eq_some_self_of_nodup_map hnodup hr
  show (match t.rows.find? (fun y =>
      wideKeyOf t nf vf y = wideKeyOf t nf vf r ∧ wideName t nf y = wideName t nf r) with
    | some y => rowGet t.header y vf
    | none => Val.absent) = _
  rw [hfind]

theorem wideCell_of_no_match (t : Table) (nf vf : String) {key : List Val} {u : Val}
    (h : ¬ ∃ r ∈ t.rows, wideKeyOf t nf vf r = key ∧ wideName t nf r = u) :
    wideCell t nf vf key u = Val.absent := by
  have hfind : t.rows.find? (fun y =>
      wideKeyOf t nf vf y = key ∧ wideName t nf y = u) = none := by
    rw [List.find?_eq_none]
    intro y hy hp
    apply h
    refine ⟨y, hy, ?_⟩
    simpa using hp
  show (match t.rows.find? (fun y =>
      wideKeyOf t nf vf y = key ∧ wideName t nf y = u) with
    | some y => rowGet t.header y vf
    | none => Val.absent) = _
  rw [hfind]

end WideTableLemmas

/-- C2: on a well-formed input with no ambiguous pairs (and distinct generated
column names, so the output is itself well-formed), `pivot_wider` succeeds and
returns a table whose header is the key columns followed by one column per
distinct `names_from` value, with one row per distinct key combination (count
and injectivity of the key part), the cell under a row's `names_from` value
holding its `values_from` entry and the absent marker filling the pairs with no
matching input row; the spec's 4-row example yields 2 rows with columns
`subid`, `beds`, `faces`. -/
theorem pivot_wider_contract (t : Table) (nf vf : String)
    (hwf : t.WF) (hnodup : NoDupPairs t nf vf)
    (hnames : ((wideNames t nf).map Val.toName).Nodup)
    (hdisj : ∀ u ∈ wideNames t nf, Val.toName u ∉ wideKeyCols t nf vf) :
    pivot_wider t nf vf = Except.ok (wideTable t nf vf) ∧
    (wideTable t nf vf).header =
      wideKeyCols t nf vf ++ (wideNames t nf).map Val.toName ∧
    (wideTable t nf vf).rows.length =
      (t.rows.map (wideKeyOf t nf vf)).toFinset.card ∧
    (∀ r ∈ t.rows, ∃ i : Fin (wideTable t nf vf).rows.length,
      (∀ c ∈ wideKeyCols t nf vf,
        rowGet (wideTable t nf vf).header ((wideTable t nf vf).rows.get i) c =
          rowGet t.header r c) ∧
      rowGet (wideTable t nf vf).header ((wideTable t nf vf).rows.get i)
          (Val.toName (wideName t nf r)) = rowGet t.header r vf) ∧
    (∀ i : Fin (wideTable t nf vf).rows.length, ∀ u ∈ wideNames t nf,
      (¬ ∃ r ∈ t.rows, wideKeyOf t nf vf r =
          (wideKeyCols t nf vf).map (fun c => rowGet (wideTable t nf vf).header
            ((wideTable t nf vf).rows.get i) c) ∧ wideName t nf r = u) →
      rowGet (wideTable t nf vf).header ((wideTable t nf vf).rows.get i)
        (Val.toName u) = Val.absent) ∧
    (∀ i1 i2 : Fin (wideTable t nf vf).rows.length,
      (wideKeyCols t nf vf).map (fun c => rowGet (wideTable t nf vf).header
          ((wideTable t nf vf).rows.get i1) c) =
        (wideKeyCols t nf vf).map (fun c => rowGet (wideTable t nf vf).header
          ((wideTable t nf vf).rows.get i2) c) → i1 = i2) ∧
    pivot_wider sgfEx "item" "correct" = Except.ok
      { header := ["subid", "beds", "faces"],
        rows := [[Val.num 1, Val.num 0, Val.num 1],
                 [Val.num 2, Val.num 1, Val.num 0]] } := by
  have hfalse : hasDup (widePairs t nf vf) = false := (hasDup_eq_false_iff _).mpr hnodup
  refine ⟨?_, rfl, ?_, ?_, ?_, ?_, by rfl⟩
  · simp only [pivot_wider, hfalse, Bool.false_eq_true, if_false]
  · show ((wideKeys t nf vf).map _).length = _
    rw [List.length_map]
    exact length_uniqueKeep _
  · intro r hr
    have hmem : wideKeyOf t nf vf r ∈ wideKeys t nf vf :=
      (mem_uniqueKeep _ _).mpr (List.mem_map_of_mem _ hr)
    obtain ⟨i0, hi0⟩ := List.mem_iff_get.mp hmem
    have hlen : (wideTable t nf vf).rows.length = (wideKeys t nf vf).length :=
      List.length_map _ _
    refine ⟨⟨i0.val, hlen.symm ▸ i0.isLt⟩, ?_⟩
    obtain ⟨hi, h1, h2⟩ := wideTable_get_spec t nf vf hnames hdisj
      ⟨i0.val, hlen.symm ▸ i0.isLt⟩
    have hgeteq : (wideKeys t nf vf).get ⟨i0.val, hi⟩ = wideKeyOf t nf vf r := by
      rw [← hi0]
    constructor
    · intro c hc
      have h1' : (wideKeyCols t nf vf).map (fun c => rowGet (wideTable t nf vf).header
          ((wideTable t nf vf).rows.get ⟨i0.val, hlen.symm ▸ i0.isLt⟩) c) =
          (wideKeys t nf vf).get ⟨i0.val, hi⟩ := h1
      rw [hgeteq] at h1'
      have hkeymap : wideKeyOf t nf vf r =
          (wideKeyCols t nf vf).map (fun c => rowGet t.header r c) := rfl
      rw [hkeymap] at h1'
      exact map_eq_map_pointwise h1' c hc
    · have h2' : rowGet (wideTable t nf vf).header
          ((wideTable t nf vf).rows.get ⟨i0.val, hlen.symm ▸ i0.isLt⟩)
          (Val.toName (wideName t nf r)) =
          wideCell t nf vf ((wideKeys t nf vf).get ⟨i0.val, hi⟩) (wideName t nf r) :=
        h2 (wideName t nf r) ((mem_uniqueKeep _ _).mpr (List.mem_map_of_mem _ hr))
      rw [hgeteq] at h2'
      rw [h2']
      exact wideCell_of_mem t nf vf hnodup hr
  · intro i u hu hno
    obtain ⟨hi, h1, h2⟩ := wideTable_get_spec t nf vf hnames hdisj i
    rw [h2 u hu]
    apply wideCell_of_no_match
    intro hcon
    apply hno
    rw [h1]
    exact hcon
  · intro i1 i2 heq
    obtain ⟨hi1, h11, _⟩ := wideTable_get_spec t nf vf hnames hdisj i1
    obtain ⟨hi2, h21, _⟩ := wideTable_get_spec t nf vf hnames hdisj i2
    rw [h11, h21] at heq
    have hfin := (List.Nodup.get_inj_iff (uniqueKeep_nodup _)).mp heq
    have hv : (⟨i1.val, hi1⟩ : Fin (wideKeys t nf vf).length).val =
        (⟨i2.val, hi2⟩ : Fin (wideKeys t nf vf).length).val := congrArg Fin.val hfin
    exact Fin.ext hv

section RoundTripLemmas

theorem flatMap_congr {α β : Type} {l : List α} {f g : α → List β}
    (h : ∀ a ∈ l, f a = g a) : l.flatMap f = l.flatMap g := by
  induction l with
  | nil => rfl
  | cons a l ih =>
    rw [List.flatMap_cons, List.flatMap_cons, h a (List.mem_cons_self a l),
      ih (fun x hx => h x (List.mem_cons_of_mem a hx))]

theorem nodup_map_of_nodup_flatMap {α β : Type} {l : List α} {F : α → List β} {e : α → β}
    (he : ∀ a ∈ l, e a ∈ F a) (hnd : (l.flatMap F).Nodup) : (l.map e).Nodup := by
  induction l with
  | nil => simp
  | cons a l ih =>
    rw [List.flatMap_cons] at hnd
    rw [List.map_cons, List.nodup_cons]
    obtain ⟨h1, h2, h3⟩ := List.nodup_append.mp hnd
    constructor
    · intro hmem
      obtain ⟨b, hb, heq⟩ := List.mem_map.mp hmem
      have hin1 : e a ∈ F a := he a (List.mem_cons_self a l)
      have hin2 : e a ∈ l.flatMap F :=
        List.mem_flatMap.mpr ⟨b, hb, heq ▸ he b (List.mem_cons_of_mem a hb)⟩
      exact h3 hin1 hin2
    · exact ih (fun x hx => he x (List.mem_cons_of_mem a hx)) h2

theorem gather_keyCols (t : Table) (cols : List String) (k v : String)
    (hk : k ∉ t.header) (hv : v ∉ t.header) :
    wideKeyCols (pivot_longer t cols k v) k v = restCols t.header cols := by
  show (restCols t.header cols ++ [k, v]).filter (fun c => c ≠ k ∧ c ≠ v) = _
  rw [List.filter_append]
  have h1 : (restCols t.header cols).filter (fun c => c ≠ k ∧ c ≠ v) =
      restCols t.header cols := by
    apply List.filter_eq_self.mpr
    intro c hc
    have hch : c ∈ t.header := List.mem_of_mem_filter hc
    simp only [decide_eq_true_eq]
    exact ⟨fun e => hk (e ▸ hch), fun e => hv (e ▸ hch)⟩
  have h2 : ([k, v] : List String).filter (fun c => c ≠ k ∧ c ≠ v) = [] := by
    simp
  rw [h1, h2, List.append_nil]

theorem gather_keyOf (t : Table) (cols : List String) (k v : String)
    (hk : k ∉ t.header) (hv : v ∉ t.header) (r : List Val) (c : String) :
    wideKeyOf (pivot_longer t cols k v) k v (gatherRow t cols r c) =
      (restCols t.header cols).map (fun c2 => rowGet t.header r c2) := by
  show (wideKeyCols (pivot_longer t cols k v) k v).map
      (fun c2 => rowGet (pivot_longer t cols k v).header (gatherRow t cols r c) c2) = _
  rw [gather_keyCols t cols k v hk hv]
  apply List.map_congr_left
  intro c2 hc2
  show rowGet (restCols t.header cols ++ [k, v])
      ((restCols t.header cols).map (fun c3 => rowGet t.header r c3) ++
        [Val.str c, rowGet t.header r c]) c2 = _
  rw [rowGet_append_left (List.length_map _ _) hc2]
  exact rowGet_map_self _ hc2

theorem gather_name (t : Table) (cols : List String) (k v : String)
    (hk : k ∉ t.header) (r : List Val) (c : String) :
    wideName (pivot_longer t cols k v) k (gatherRow t cols r c) = Val.str c := by
  show rowGet (restCols t.header cols ++ [k, v])
      ((restCols t.header cols).map (fun c3 => rowGet t.header r c3) ++
        [Val.str c, rowGet t.header r c]) k = _
  rw [@rowGet_append_right (restCols t.header cols) [k, v]
    ((restCols t.header cols).map (fun c3 => rowGet t.header r c3))
    [Val.str c, rowGet t.header r c] k (List.length_map _ _)
    (fun h => hk (List.mem_of_mem_filter h))]
  simp [rowGet]

theorem gather_value (t : Table) (cols : List String) (k v : String)
    (hv : v ∉ t.header) (hkv : k ≠ v) (r : List Val) (c : String) :
    rowGet (pivot_longer t cols k v).header (gatherRow t cols r c) v =
      rowGet t.header r c := by
  show rowGet (restCols t.header cols ++ [k, v])
      ((restCols t.header cols).map (fun c3 => rowGet t.header r c3) ++
        [Val.str c, rowGet t.header r c]) v = _
  rw [@rowGet_append_right (restCols t.header cols) [k, v]
    ((restCols t.header cols).map (fun c3 => rowGet t.header r c3))
    [Val.str c, rowGet t.header r c] v (List.length_map _ _)
    (fun h => hv (List.mem_of_mem_filter h))]
  simp [rowGet, hkv]

end RoundTripLemmas

/-- C1 (amended): gathering and re-spreading is the identity up to row and
column ordering, on tables with at least one row, a nonempty duplicate-free
list of collapsed columns drawn from the schema, fresh distinct names/values
target columns, and no duplicate (key, names_from-value) pairs. -/
theorem pivot_round_trip (t : Table) (cols : List String) (k v : String)
    (hwf : t.WF) (hsub : ∀ c ∈ cols, c ∈ t.header) (hcnd : cols.Nodup)
    (hcne : cols ≠ []) (hrne : t.rows ≠ [])
    (hk : k ∉ t.header) (hv : v ∉ t.header) (hkv : k ≠ v)
    (hnodup : NoDupPairs (pivot_longer t cols k v) k v) :
    ∃ w, pivot_wider (pivot_longer t cols k v) k v = Except.ok w ∧
      t.EquivMod w := by
  obtain ⟨c0, cols0, hcols⟩ : ∃ c0 cols0, cols = c0 :: cols0 := by
    cases cols with
    | nil => exact absurd rfl hcne
    | cons a l => exact ⟨a, l, rfl⟩
  have hpairs : widePairs (pivot_longer t cols k v) k v =
      t.rows.flatMap (fun r => (cols.map (gatherRow t cols r)).map
        (fun g => (wideKeyOf (pivot_longer t cols k v) k v g,
          wideName (pivot_longer t cols k v) k g))) := by
    show (t.rows.flatMap (fun r => cols.map (gatherRow t cols r))).map _ = _
    rw [List.map_flatMap]
  have hproj_nodup : (t.rows.map (fun r =>
      (restCols t.header cols).map (fun c2 => rowGet t.header r c2))).Nodup := by
    have hc0 : c0 ∈ cols := by
      rw [hcols]
      exact List.mem_cons_self _ _
    have he : ∀ r ∈ t.rows,
        ((restCols t.header cols).map (fun c2 => rowGet t.header r c2), Val.str c0) ∈
          (cols.map (gatherRow t cols r)).map
            (fun g => (wideKeyOf (pivot_longer t cols k v) k v g,
              wideName (pivot_longer t cols k v) k g)) := by
      intro r _
      have hmem := List.mem_map_of_mem
        (fun g => (wideKeyOf (pivot_longer t cols k v) k v g,
          wideName (pivot_longer t cols k v) k g))
        (List.mem_map_of_mem (gatherRow t cols r) hc0)
      have hval : ((restCols t.header cols).map (fun c2 => rowGet t.header r c2),
          Val.str c0) =
          (fun g => (wideKeyOf (pivot_longer t cols k v) k v g,
            wideName (pivot_longer t cols k v) k g)) (gatherRow t cols r c0) := by
        show _ = (wideKeyOf (pivot_longer t cols k v) k v (gatherRow t cols r c0),
          wideName (pivot_longer t cols k v) k (gatherRow t cols r c0))
        rw [gather_keyOf t cols k v hk hv, gather_name t cols k v hk]
      rw [hval]
      exact hmem
    have hnd' : (widePairs (pivot_longer t cols k v) k v).Nodup := hnodup
    rw [hpairs] at hnd'
    have hmapnd := nodup_map_of_nodup_flatMap he hnd'
    have hmm : t.rows.map (fun r =>
        (restCols t.header cols).map (fun c2 => rowGet t.header r c2)) =
        (t.rows.map (fun r =>
          ((restCols t.header cols).map (fun c2 => rowGet t.header r c2),
            Val.str c0))).map Prod.fst := by
      rw [List.map_map]
      rfl
    rw [hmm]
    apply List.Nodup.map_on ?_ hmapnd
    intro x hx y hy hxy
    obtain ⟨rx, _, hrx⟩ := List.mem_map.mp hx
    obtain ⟨ry, _, hry⟩ := List.mem_map.mp hy
    rw [← hrx, ← hry] at hxy ⊢
    exact Prod.ext hxy rfl
  have hkeys : wideKeys (pivot_longer t cols k v) k v =
      t.rows.map (fun r => (restCols t.header cols).map (fun c2 => rowGet t.header r c2)) := by
    show uniqueKeep ((pivot_longer t cols k v).rows.map
      (wideKeyOf (pivot_longer t cols k v) k v)) = _
    have h1 : (pivot_longer t cols k v).rows.map (wideKeyOf (pivot_longer t cols k v) k v) =
        t.rows.flatMap (fun r => cols.map (fun _ =>
          (restCols t.header cols).map (fun c2 => rowGet t.header r c2))) := by
      show (t.rows.flatMap (fun r => cols.map (gatherRow t cols r))).map _ = _
      rw [List.map_flatMap]
      apply flatMap_congr
      intro r _
      rw [List.map_map]
      apply List.map_congr_left
      intro c _
      exact gather_keyOf t cols k v hk hv r c
    rw [h1]
    apply uniqueKeep_flatMap_blocks
    · intro r _
      rw [hcols]
      simp
    · intro r _ x hx
      obtain ⟨c, _, hc⟩ := List.mem_map.mp hx
      exact hc.symm
    · exact hproj_nodup
  have hnamesval : wideNames (pivot_longer t cols k v) k = cols.map Val.str := by
    show uniqueKeep ((pivot_longer t cols k v).rows.map
      (wideName (pivot_longer t cols k v) k)) = _
    have h1 : (pivot_longer t cols k v).rows.map (wideName (pivot_longer t cols k v) k) =
        t.rows.flatMap (fun _ => cols.map Val.str) := by
      show (t.rows.flatMap (fun r => cols.map (gatherRow t cols r))).map _ = _
      rw [List.map_flatMap]
      apply flatMap_congr
      intro r _
      rw [List.map_map]
      apply List.map_congr_left
      intro c _
      exact gather_name t cols k v hk r c
    rw [h1, uniqueKeep_flatMap_same _ _ hrne]
    exact uniqueKeep_eq_self (hcnd.map (fun a b e => Val.str.inj e))
  have hcell : ∀ r ∈ t.rows, ∀ c ∈ cols,
      wideCell (pivot_longer t cols k v) k v
        ((restCols t.header cols).map (fun c2 => rowGet t.header r c2)) (Val.str c) =
      rowGet t.header r c := by
    intro r hr c hc
    have hgrow : gatherRow t cols r c ∈ (pivot_longer t cols k v).rows := by
      show _ ∈ t.rows.flatMap (fun r => cols.map (gatherRow t cols r))
      exact List.mem_flatMap.mpr ⟨r, hr, List.mem_map_of_mem _ hc⟩
    have hmem := wideCell_of_mem (pivot_longer t cols k v) k v hnodup hgrow
    rw [gather_keyOf t cols k v hk hv, gather_name t cols k v hk,
      gather_value t cols k v hv hkv] at hmem
    exact hmem
  have hfalse : hasDup (widePairs (pivot_longer t cols k v) k v) = false :=
    (hasDup_eq_false_iff _).mpr hnodup
  have hok : pivot_wider (pivot_longer t cols k v) k v =
      Except.ok (wideTable (pivot_longer t cols k v) k v) := by
    simp only [pivot_wider, hfalse, Bool.false_eq_true, if_false]
  have hheader : (wideTable (pivot_longer t cols k v) k v).header =
      restCols t.header cols ++ cols := by
    show wideKeyCols (pivot_longer t cols k v) k v ++
      (wideNames (pivot_longer t cols k v) k).map Val.toName = _
    rw [gather_keyCols t cols k v hk hv, hnamesval, List.map_map]
    congr 1
    rw [show cols.map (Val.toName ∘ Val.str) = cols.map (fun c => c) from
      List.map_congr_left (fun c _ => rfl), List.map_id']
  have hrows : (wideTable (pivot_longer t cols k v) k v).rows =
      t.rows.map (fun r => (restCols t.header cols ++ cols).map
        (fun c => rowGet t.header r c)) := by
    show (wideKeys (pivot_longer t cols k v) k v).map (fun key =>
      key ++ (wideNames (pivot_longer t cols k v) k).map
        (fun u => wideCell (pivot_longer t cols k v) k v key u)) = _
    rw [hkeys, hnamesval, List.map_map]
    apply List.map_congr_left
    intro r hr
    show (restCols t.header cols).map (fun c2 => rowGet t.header r c2) ++
        (cols.map Val.str).map (fun u => wideCell (pivot_longer t cols k v) k v
          ((restCols t.header cols).map (fun c2 => rowGet t.header r c2)) u) = _
    rw [List.map_map, List.map_append]
    congr 1
    apply List.map_congr_left
    intro c hc
    exact hcell r hr c hc
  have hw : wideTable (pivot_longer t cols k v) k v =
      ⟨restCols t.header cols ++ cols,
        t.rows.map (fun r => (restCols t.header cols ++ cols).map
          (fun c => rowGet t.header r c))⟩ := by
    have he : Table.mk (wideTable (pivot_longer t cols k v) k v).header
        (wideTable (pivot_longer t cols k v) k v).rows =
        Table.mk (restCols t.header cols ++ cols)
          (t.rows.map (fun r => (restCols t.header cols ++ cols).map
            (fun c => rowGet t.header r c))) := by
      rw [hheader, hrows]
    exact he
  have hp1 := List.filter_append_perm (fun c => decide (c ∉ cols)) t.header
  have hp2 : t.header.filter (fun c => !(decide (c ∉ cols))) =
      t.header.filter (fun c => decide (c ∈ cols)) := by
    apply List.filter_congr
    intro c _
    simp [decide_not]
  have hp3 : (t.header.filter (fun c => decide (c ∈ cols))).Perm cols := by
    apply List.perm_of_nodup_nodup_toFinset_eq (List.Nodup.filter _ hwf.1) hcnd
    ext x
    simp only [List.mem_toFinset, List.mem_filter, decide_eq_true_eq]
    constructor
    · rintro ⟨_, h2⟩
      exact h2
    · intro hx
      exact ⟨hsub x hx, hx⟩
  rw [hp2] at hp1
  have hperm : t.header.Perm (restCols t.header cols ++ cols) :=
    hp1.symm.trans (List.Perm.append_left _ hp3)
  refine ⟨wideTable (pivot_longer t cols k v) k v, hok, ?_, ?_⟩
  · rw [hw]
    exact hperm
  · rw [hw]
    have hre : (Table.reorderTo
        ⟨restCols t.header cols ++ cols,
          t.rows.map (fun r => (restCols t.header cols ++ cols).map
            (fun c => rowGet t.header r c))⟩ t.header).rows = t.rows := by
      show ((t.rows.map (fun r => (restCols t.header cols ++ cols).map
        (fun c => rowGet t.header r c))).map (fun r' => t.header.map
          (fun c => rowGet (restCols t.header cols ++ cols) r' c))) = _
      rw [List.map_map]
      have hpt : ∀ r ∈ t.rows,
          ((fun r' => t.header.map (fun c =>
            rowGet (restCols t.header cols ++ cols) r' c)) ∘
            (fun r => (restCols t.header cols ++ cols).map
              (fun c => rowGet t.header r c))) r = (fun r => r) r := by
        intro r hr
        show t.header.map (fun c => rowGet (restCols t.header cols ++ cols)
          ((restCols t.header cols ++ cols).map (fun c2 => rowGet t.header r c2)) c) = r
        have h1 : ∀ c ∈ t.header,
            rowGet (restCols t.header cols ++ cols)
              ((restCols t.header cols ++ cols).map (fun c2 => rowGet t.header r c2)) c =
            rowGet t.header r c := by
          intro c hc
          exact rowGet_map_self _ (hperm.mem_iff.mp hc)
        rw [List.map_congr_left h1]
        exact map_rowGet_self hwf.1 (hwf.2 r hr)
      rw [List.map_congr_left hpt, List.map_id']
    rw [hre]

/-- C1 witness: the round trip applied to a concrete wide table, gathering the
`beds`/`faces` columns and re-spreading them. -/
theorem pivot_round_trip_witness :
    ∃ w, pivot_wider (pivot_longer wideEx ["beds", "faces"] "item" "correct")
        "item" "correct" = Except.ok w ∧ wideEx.EquivMod w :=
  pivot_round_trip wideEx ["beds", "faces"] "item" "correct"
    ⟨by decide, by decide⟩ (by decide) (by decide) (by decide) (by decide)
    (by decide) (by decide) (by decide)
    (show (widePairs (pivot_longer wideEx ["beds", "faces"] "item" "correct")
      "item" "correct").Nodup by decide)

/-- C1 counterexample: on a zero-row table the round trip drops the collapsed
columns, so the result is not equal to the original up to row and column
ordering, even though no (key, names_from-value) pair is duplicated and no
absent value is introduced. -/
theorem pivot_round_trip_counterexample :
    NoDupPairs (pivot_longer emptyEx ["beds"] "item" "correct") "item" "correct" ∧
    pivot_wider (pivot_longer emptyEx ["beds"] "item" "correct") "item" "correct" =
      Except.ok (Table.mk ["subid"] []) ∧
    ¬ emptyEx.EquivMod (Table.mk ["subid"] []) := by
  refine ⟨show (widePairs (pivot_longer emptyEx ["beds"] "item" "correct")
    "item" "correct").Nodup by decide, by rfl, ?_⟩
  rintro ⟨hperm, _⟩
  have hlen := hperm.length_eq
  exact absurd hlen (by decide)

/-- C2 witness: the contract applied to the spec's 4-row example table. -/
theorem pivot_wider_contract_witness :
    pivot_wider sgfEx "item" "correct" = Except.ok (wideTable sgfEx "item" "correct") :=
  (pivot_wider_contract sgfEx "item" "correct" ⟨by decide, by decide⟩
    (show (widePairs sgfEx "item" "correct").Nodup by decide)
    (by decide) (by decide)).1

/-- C4 witness: the contract applied to the example table, collapsing the
`correct` column. -/
theorem pivot_longer_contract_witness :
    (pivot_longer sgfEx ["correct"] "cat" "val").rows.length =
      sgfEx.rows.length * (["correct"] : List String).length :=
  (pivot_longer_contract sgfEx ["correct"] "cat" "val" ⟨by decide, by decide⟩ (by decide)
    (by decide) (by decide) (by decide)).1

end TidyTable
